import Mathlib

/-
Shallow embedding of src/isoconda/models/channel.py.

Python dictionaries are modelled as association lists (`List (String × _)`)
in insertion order; real Python dicts never hold a duplicate key, so the
dictionary operations below agree with Python's on lists whose keys are
nodup, and theorems add that hypothesis where it matters.

Python's `max` over tuples `(order_key, timestamp)` with
`timestamp : Optional[int]` is modelled faithfully: when the order keys
compare equal and exactly one timestamp is `None`, CPython raises a
`TypeError`; the embedding returns `Except.error PyError.typeError` there.
-/

namespace Isoconda

/-- Values stored in a group's opaque field bag (`Dict[str, Any]` in the
source): strings, integers, and lists of strings cover every field the
code itself reads or writes (`version`, `timestamp`, `subdirs`) as well as
arbitrary extra payload fields. -/
inductive Value where
  | str : String → Value
  | int : Int → Value
  | strs : List String → Value
deriving DecidableEq

/-- Python `d.get(k, None)` / `d[k]` on an association list: the value of
the first binding of `k`. -/
def dget {β : Type} : List (String × β) → String → Option β
  | [], _ => none
  | (k, v) :: rest, key => if k = key then some v else dget rest key

/-- Python `d.pop(k, None)`: remove the binding of `k`.  A Python dict has
at most one binding per key; on nodup-key lists removing every binding of
the key is the same operation. -/
def dpop {β : Type} (key : String) : List (String × β) → List (String × β)
  | [] => []
  | (k₁, v₁) :: rest => if k₁ = key then dpop key rest else (k₁, v₁) :: dpop key rest

/-- Python `d[k] = v`: replace the value in place when the key is present
(keeping its position, as CPython does), otherwise append the new binding.
A Python dict holds at most one binding per key, so replacing the first
binding found is the dict behavior. -/
def dset {β : Type} (key : String) (v : β) : List (String × β) → List (String × β)
  | [] => [(key, v)]
  | (k₁, v₁) :: rest => if k₁ = key then (key, v) :: rest else (k₁, v₁) :: dset key v rest

/-- Lexicographic comparison of character lists by code point, the order
Python's string `<` uses. -/
def charListLe : List Char → List Char → Bool
  | [], _ => true
  | _ :: _, [] => false
  | c :: cs, d :: ds =>
    if c.toNat < d.toNat then true
    else if d.toNat < c.toNat then false
    else charListLe cs ds

/-- Lexicographic comparison of strings by code point. -/
def strLe (a b : String) : Bool :=
  charListLe a.data b.data

/-- Insert a string into a list kept in lexicographically nondecreasing
order. -/
def sinsert (s : String) : List String → List String
  | [] => [s]
  | x :: xs => if strLe s x then s :: x :: xs else x :: sinsert s xs

/-- Python `sorted(...)` on a list of strings (duplicates kept):
insertion sort under the lexicographic order. -/
def sortStr : List String → List String
  | [] => []
  | x :: xs => sinsert x (sortStr xs)

/-- Python `sorted(set(...))` on strings: distinct elements in
lexicographic order.  (Where the source converts a set straight to a list
— `list(channel_subdirs)` via the `ChannelData` constructor — CPython's
order is unspecified hash order; the embedding picks the sorted order, and
theorems about such lists are stated up to membership.) -/
def sortDedup (l : List String) : List String :=
  sortStr l.dedup

/-- `isoconda.errors.InvalidChannel`. -/
structure InvalidChannel where
  msg : String
deriving DecidableEq

/-- Python runtime errors that `rescale` can raise: `TypeError` from
comparing `None` with `int` inside tuple `max`, `ValueError` from `max` of
an empty sequence (unreachable: guarded by `if packages:`). -/
inductive PyError where
  | typeError : PyError
  | valueError : PyError
deriving DecidableEq

/-- `ChannelGroupInfo`: a named package group and its deep-copied field
bag (`self._name`, `self._data`).  Deep copies are identities on pure
values, so only the two fields remain. -/
structure ChannelGroupInfo where
  name : String
  data : List (String × Value)
deriving DecidableEq

namespace ChannelGroupInfo

/-- `self._pkey = self._name`. -/
def pkey (g : ChannelGroupInfo) : String := g.name

/-- `self._hash = hash(self._pkey)`. -/
def hashv (g : ChannelGroupInfo) : UInt64 := g.pkey.hash

/-- `__eq__`: `self._pkey == other._pkey`. -/
def eq (a b : ChannelGroupInfo) : Bool := a.pkey == b.pkey

/-- Property `timestamp`: `self._data.get('timestamp', None)`. -/
def timestamp (g : ChannelGroupInfo) : Option Value := dget g.data "timestamp"

/-- Property `version`: `self._data['version']` — raises `KeyError` when
absent, modelled as `Option`. -/
def version (g : ChannelGroupInfo) : Option Value := dget g.data "version"

/-- `dump`: a deep copy of the field bag. -/
def dump (g : ChannelGroupInfo) : List (String × Value) := g.data

/-- `update_latest(version, timestamp)`: drop the `timestamp` field when
the argument is `None` or `0`, set it otherwise; then overwrite
`version`; keep the name. -/
def update_latest (g : ChannelGroupInfo) (version : String)
    (timestamp : Option Int) : ChannelGroupInfo :=
  let data :=
    match timestamp with
    | none => dpop "timestamp" g.data
    | some t => if t = 0 then dpop "timestamp" g.data else dset "timestamp" (Value.int t) g.data
  ⟨g.name, dset "version" (Value.str version) data⟩

/-- `update_subdirs(subdirs)`: overwrite the `subdirs` field with the
given list, in the order supplied. -/
def update_subdirs (g : ChannelGroupInfo) (subdirs : List String) : ChannelGroupInfo :=
  ⟨g.name, dset "subdirs" (Value.strs subdirs) g.data⟩

end ChannelGroupInfo

/-- Modelled from the spec: `isoconda.models.repo.PackageRecord` is not
under src/; per the spec it exposes a version string, an optional integer
timestamp and an owning subdir. -/
structure PackageRecord where
  version : String
  timestamp : Option Int
  subdir : String
deriving DecidableEq

/-- Modelled from the spec: `isoconda.models.repo.RepoData` is not under
src/; per the spec it exposes its subdir identifier, supports `name in
repo`, and `repo[name]` yields the sequence of records for a name. -/
structure RepoData where
  subdir : String
  records : List (String × List PackageRecord)
deriving DecidableEq

namespace RepoData

/-- `name in repo`. -/
def contains (r : RepoData) (name : String) : Bool :=
  r.records.any (fun p => p.1 = name)

/-- `repo[name]` (the empty sequence when the name is absent; `rescale`
only calls it after a containment check). -/
def get (r : RepoData) (name : String) : List PackageRecord :=
  (dget r.records name).getD []

end RepoData

/-- Split a character list on the dot character. -/
def splitOnDot : List Char → List (List Char)
  | [] => [[]]
  | c :: cs =>
    match splitOnDot cs with
    | [] => [[c]]
    | h :: t => if c = '.' then [] :: h :: t else (c :: h) :: t

/-- The numeric value of a decimal digit character, when it is one. -/
def charDigit (c : Char) : Option Nat :=
  if 48 ≤ c.toNat ∧ c.toNat ≤ 57 then some (c.toNat - 48) else none

/-- Read a character list as a decimal number, `none` when some character
is not a digit. -/
def natOfChars (l : List Char) : Option Nat :=
  l.foldl
    (fun acc c =>
      match acc, charDigit c with
      | some n, some d => some (n * 10 + d)
      | _, _ => none)
    (some 0)

/-- Modelled from the spec: `isoconda.models.utils.create_order` is not
under src/; per the spec it is an external pure, total, monotonic function
from a version string to a totally ordered comparable key.  Modelled as
the list of dot-separated numeric components. -/
def create_order (v : String) : List Nat :=
  (splitOnDot v.data).map (fun s => (natOfChars s).getD 0)

/-- The decimal digit character for a value below ten. -/
def digitChar (d : Nat) : Char :=
  Char.ofNat (48 + d)

/-- Decimal digits of a number, most significant first, accumulated with
explicit fuel (the number itself bounds the digit count). -/
def natDigits : Nat → Nat → List Char → List Char
  | 0, _, acc => acc
  | fuel + 1, n, acc =>
    if n = 0 then acc else natDigits fuel (n / 10) (digitChar (n % 10) :: acc)

/-- Decimal rendering of a number. -/
def natToChars (n : Nat) : List Char :=
  if n = 0 then ['0'] else natDigits (n + 1) n []

/-- Characters of the dot-joined rendering of an order key. -/
def orderChars : List Nat → List Char
  | [] => []
  | [n] => natToChars n
  | n :: rest => natToChars n ++ '.' :: orderChars rest

/-- Modelled from the spec: `str(order)` — the stringified order key that
`rescale` stores as the new `version` field. -/
def orderToString (k : List Nat) : String :=
  ⟨orderChars k⟩

/-- Strict lexicographic `<` on order keys (Python tuple/list comparison
on equal-typed components never errors here: all components are ints). -/
def keyLt : List Nat → List Nat → Bool
  | [], [] => false
  | [], _ :: _ => true
  | _ :: _, [] => false
  | a :: as, b :: bs => if a < b then true else if b < a then false else keyLt as bs

/-- Python `>` on two optional timestamps that tuple comparison reached
because the order keys compared equal: `None` vs `None` gives equal tuples
(so not greater), int vs int compares, and `None` vs int raises
`TypeError`. -/
def tsGt : Option Int → Option Int → Except PyError Bool
  | none, none => Except.ok false
  | some a, some b => Except.ok (decide (b < a))
  | _, _ => Except.error PyError.typeError

/-- Python `>` on pairs `(order_key, timestamp)`: compare the keys when
they differ, otherwise fall through to the timestamps. -/
def pairGt (x y : List Nat × Option Int) : Except PyError Bool :=
  if x.1 = y.1 then tsGt x.2 y.2 else Except.ok (keyLt y.1 x.1)

/-- Python `max(iterable)`: seed with the first element, keep the current
maximum, replace it whenever a later item compares strictly greater.
Empty input raises `ValueError`. -/
def pymax : List (List Nat × Option Int) → Except PyError (List Nat × Option Int)
  | [] => Except.error PyError.valueError
  | x :: xs =>
    xs.foldlM (fun acc y => do
      let b ← pairGt y acc
      pure (if b then y else acc)) x

/-- The packages collected for one group name: `for repo in repos: if name
in repo: packages.extend(repo[name])`. -/
def collect (repos : List RepoData) (name : String) : List PackageRecord :=
  (repos.filter (fun r => r.contains name)).flatMap (fun r => r.get name)

/-- The body of the `rescale` loop for one `(name, info)` item: `none`
when no records were found (the group is dropped), otherwise the group
updated with the sorted record subdirs and the winning
version/timestamp pair (which can raise from Python `max`). -/
def groupResult (repos : List RepoData) (name : String)
    (info : ChannelGroupInfo) : Option (Except PyError ChannelGroupInfo) :=
  let packages := collect repos name
  if packages.isEmpty then none
  else some (do
    let subdirs := sortDedup (packages.map (fun p => p.subdir))
    let best ← pymax (packages.map (fun p => (create_order p.version, p.timestamp)))
    pure ((info.update_subdirs subdirs).update_latest (orderToString best.1) best.2))

/-- The `groups` dictionary built by the `rescale` loop, in iteration
order (the keys of `self._groups` are unique, so each insertion is a
fresh append). -/
def rescaleGroups (repos : List RepoData) :
    List (String × ChannelGroupInfo) → Except PyError (List (String × ChannelGroupInfo))
  | [] => Except.ok []
  | (name, info) :: rest =>
    match groupResult repos name info with
    | none => rescaleGroups repos rest
    | some e => do
      let g ← e
      let tail ← rescaleGroups repos rest
      pure ((name, g) :: tail)

/-- `ChannelData`: the subdir list and the group dictionary
(`self._subdirs`, `self._groups`). -/
structure ChannelData where
  subdirs : List String
  groups : List (String × ChannelGroupInfo)
deriving DecidableEq

/-- The channel metadata document (`channeldata.json` dictionary) as the
spec's wire schema defines it: the three top-level keys, with each package
entry an opaque field bag. -/
structure ChannelDict where
  channeldata_version : Int
  subdirs : List String
  packages : List (String × List (String × Value))
deriving DecidableEq

namespace ChannelData

/-- `ChannelData.VERSION = 1`. -/
def VERSION : Int := 1

/-- `from_data`: check the schema tag, then build the group dictionary
keyed by each group's own name. -/
def from_data (cd : ChannelDict) : Except InvalidChannel ChannelData :=
  if cd.channeldata_version ≠ VERSION then
    Except.error ⟨"Unknown repodata version"⟩
  else
    let groups := cd.packages.foldl
      (fun acc p => dset p.1 ⟨p.1, p.2⟩ acc)
      ([] : List (String × ChannelGroupInfo))
    Except.ok ⟨cd.subdirs, groups⟩

/-- `dump`: the schema tag, each group's field bag keyed by name, and the
subdirs sorted lexicographically. -/
def dump (c : ChannelData) : ChannelDict :=
  ⟨VERSION, sortStr c.subdirs, c.groups.map (fun p => (p.1, p.2.dump))⟩

/-- `merge`: sorted union of the subdirs; group names iterated as
`sorted(set | set)`, the calling snapshot's group winning when a name is
present in both.  (Both unions always find the key, so the `filterMap`
never actually drops an entry.) -/
def merge (a b : ChannelData) : ChannelData :=
  let subdirs := sortDedup (a.subdirs ++ b.subdirs)
  let keys := sortDedup (a.groups.map Prod.fst ++ b.groups.map Prod.fst)
  let groups := keys.filterMap (fun k =>
    match dget a.groups k with
    | some g => some (k, g)
    | none => (dget b.groups k).map (fun g => (k, g)))
  ⟨subdirs, groups⟩

/-- `rescale`: recompute every currently tracked group against the given
repos.  The channel-level subdir set collects `repo.subdir` for every
`(name, repo)` pair with `name in repo` — including groups that are later
dropped for having no records. -/
def rescale (c : ChannelData) (repos : List RepoData) : Except PyError ChannelData := do
  let groups ← rescaleGroups repos c.groups
  let channel_subdirs := sortDedup (c.groups.flatMap (fun p =>
    (repos.filter (fun r => r.contains p.1)).map (fun r => r.subdir)))
  pure ⟨channel_subdirs, groups⟩

end ChannelData

/-- The `subdirs` field of a group's bag, read back as a string list. -/
def groupSubdirsOf (g : ChannelGroupInfo) : List String :=
  match dget g.data "subdirs" with
  | some (Value.strs l) => l
  | _ => []

/-- The invariant flagged by the spec: every key of the group mapping
equals the `.name` of the `ChannelGroupInfo` it maps to. -/
def KeyedByName (c : ChannelData) : Prop :=
  ∀ p ∈ c.groups, p.1 = p.2.name

/-- Snapshot for the order-key tie: one tracked group. -/
def tieSnapshot : ChannelData :=
  ⟨["linux-64"], [("numpy", ⟨"numpy", [("version", Value.str "1.0")]⟩)]⟩

/-- One repo with two records of the same version (hence equal order
keys), one without a timestamp and one with timestamp 100. -/
def tieRepos : List RepoData :=
  [⟨"linux-64", [("numpy", [⟨"1.0.0", none, "linux-64"⟩, ⟨"1.0.0", some 100, "linux-64"⟩])]⟩]

/-- Snapshot whose only group matches a repo that maps it to an empty
record sequence. -/
def emptyRecordsSnapshot : ChannelData :=
  ⟨[], [("numpy", ⟨"numpy", [("version", Value.str "1.0")]⟩)]⟩

/-- A repo that contains the group name but holds no records for it. -/
def emptyRecordsRepos : List RepoData :=
  [⟨"osx-64", [("numpy", [])]⟩]

/-- The end-to-end snapshot of the spec: group `numpy` at version 1.0. -/
def exampleSnapshot : ChannelData :=
  ⟨[], [("numpy", ⟨"numpy", [("version", Value.str "1.0")]⟩)]⟩

/-- The end-to-end repos of the spec: `numpy` 1.2.0 (timestamp 100) on
linux-64 and 1.1.0 (timestamp 200) on osx-64. -/
def exampleRepos : List RepoData :=
  [⟨"linux-64", [("numpy", [⟨"1.2.0", some 100, "linux-64"⟩])]⟩,
   ⟨"osx-64", [("numpy", [⟨"1.1.0", some 200, "osx-64"⟩])]⟩]

/-- The group `rescale` produces on the end-to-end example. -/
def exampleRescaledGroup : ChannelGroupInfo :=
  ⟨"numpy", [("version", Value.str "1.2.0"),
             ("subdirs", Value.strs ["linux-64", "osx-64"]),
             ("timestamp", Value.int 100)]⟩

/-- The snapshot `rescale` produces on the end-to-end example. -/
def exampleRescaled : ChannelData :=
  ⟨["linux-64", "osx-64"], [("numpy", exampleRescaledGroup)]⟩

/-- Snapshot tracking `scipy`, which the repos below do not mention. -/
def droppedSnapshot : ChannelData :=
  ⟨["noarch"], [("scipy", ⟨"scipy", [("version", Value.str "1.0")]⟩)]⟩

/-- A repo holding only `pandas` records. -/
def droppedRepos : List RepoData :=
  [⟨"linux-64", [("pandas", [⟨"2.0", some 5, "linux-64"⟩])]⟩]

/-- A well-formed channel document with an extra payload field. -/
def exampleDict : ChannelDict :=
  ⟨1, ["noarch", "linux-64"],
   [("numpy", [("version", Value.str "1.21"), ("license", Value.str "BSD")])]⟩

/-- The snapshot parsed from `exampleDict`. -/
def exampleParsed : ChannelData :=
  ⟨["noarch", "linux-64"],
   [("numpy", ⟨"numpy", [("version", Value.str "1.21"), ("license", Value.str "BSD")]⟩)]⟩

/-- A group with version, timestamp and an extra payload field. -/
def exampleGroup : ChannelGroupInfo :=
  ⟨"numpy", [("version", Value.str "1.0"), ("timestamp", Value.int 7),
             ("license", Value.str "BSD")]⟩

/-- A document whose only package entry lacks a `version` field. -/
def lazyDict : ChannelDict :=
  ⟨1, [], [("numpy", [("timestamp", Value.int 5)])]⟩

/-- A document with an unsupported schema version tag. -/
def badDict : ChannelDict :=
  ⟨2, [], []⟩

/-- Two groups with the same name and different payloads. -/
def groupA : ChannelGroupInfo :=
  ⟨"numpy", [("version", Value.str "1.0")]⟩

/-- Companion to `groupA`: same name, different payload. -/
def groupB : ChannelGroupInfo :=
  ⟨"numpy", [("version", Value.str "2.0"), ("license", Value.str "MIT")]⟩

section Lemmas

lemma dget_append {β : Type} (l m : List (String × β)) (k : String) :
    dget (l ++ m) k =
      match dget l k with
      | some v => some v
      | none => dget m k := by
  induction l with
  | nil => simp [dget]
  | cons p rest ih =>
    obtain ⟨k₁, v₁⟩ := p
    by_cases h : k₁ = k <;> simp [dget, h, ih]

lemma dget_dset_self {β : Type} (k : String) (v : β) (l : List (String × β)) :
    dget (dset k v l) k = some v := by
  induction l with
  | nil => simp [dset, dget]
  | cons p rest ih =>
    obtain ⟨k₁, v₁⟩ := p
    by_cases hk : k₁ = k
    · simp [dset, hk, dget]
    · simp [dset, hk, dget, ih]

lemma dget_dset_other {β : Type} (k key : String) (v : β) (l : List (String × β))
    (h : key ≠ k) : dget (dset k v l) key = dget l key := by
  induction l with
  | nil => simp [dset, dget, Ne.symm h]
  | cons p rest ih =>
    obtain ⟨k₁, v₁⟩ := p
    by_cases hk : k₁ = k
    · subst hk
      simp [dset, dget, Ne.symm h]
    · simp only [dset, if_neg hk, dget]
      by_cases hkey : k₁ = key
      · simp [hkey]
      · simp [hkey, ih]

lemma dget_dpop_self {β : Type} (k : String) (l : List (String × β)) :
    dget (dpop k l) k = none := by
  induction l with
  | nil => rfl
  | cons p rest ih =>
    obtain ⟨k₁, v₁⟩ := p
    by_cases h : k₁ = k
    · simp [dpop, h, ih]
    · simp [dpop, h, dget, ih]

lemma dget_dpop_other {β : Type} (k key : String) (l : List (String × β))
    (h : key ≠ k) : dget (dpop k l) key = dget l key := by
  induction l with
  | nil => rfl
  | cons p rest ih =>
    obtain ⟨k₁, v₁⟩ := p
    by_cases hk : k₁ = k
    · subst hk
      simp [dpop, dget, Ne.symm h, ih]
    · simp only [dpop, if_neg hk, dget]
      by_cases hkey : k₁ = key
      · simp [hkey]
      · simp [hkey, ih]

lemma dget_mem {β : Type} {l : List (String × β)} {k : String} {v : β}
    (h : dget l k = some v) : (k, v) ∈ l := by
  induction l with
  | nil => simp [dget] at h
  | cons p rest ih =>
    obtain ⟨k₁, v₁⟩ := p
    by_cases hk : k₁ = k
    · simp only [dget, hk, if_pos] at h
      subst hk
      cases h
      exact List.mem_cons_self _ _
    · simp only [dget, hk, if_neg, not_false_iff] at h
      exact List.mem_cons_of_mem _ (ih h)

lemma dget_isSome_iff_mem_keys {β : Type} (l : List (String × β)) (k : String) :
    (∃ v, dget l k = some v) ↔ k ∈ l.map Prod.fst := by
  induction l with
  | nil => simp [dget]
  | cons p rest ih =>
    obtain ⟨k₁, v₁⟩ := p
    by_cases hk : k₁ = k
    · subst hk
      simp [dget]
    · simp [dget, hk, Ne.symm hk, ih]

lemma charListLe_total (a b : List Char) : charListLe a b = true ∨ charListLe b a = true := by
  induction a generalizing b with
  | nil => left; rfl
  | cons c cs ih =>
    cases b with
    | nil => right; rfl
    | cons d ds =>
      by_cases h1 : c.toNat < d.toNat
      · left; simp [charListLe, h1]
      · by_cases h2 : d.toNat < c.toNat
        · right; simp [charListLe, h2]
        · rcases ih ds with h | h
          · left; simp [charListLe, h1, h2, h]
          · right; simp [charListLe, h1, h2, h]

lemma charListLe_trans {a b c : List Char} (hab : charListLe a b = true)
    (hbc : charListLe b c = true) : charListLe a c = true := by
  induction a generalizing b c with
  | nil => rfl
  | cons x xs ih =>
    cases b with
    | nil => simp [charListLe] at hab
    | cons y ys =>
      cases c with
      | nil => simp [charListLe] at hbc
      | cons z zs =>
        simp only [charListLe] at hab hbc ⊢
        rcases Nat.lt_trichotomy x.toNat y.toNat with h1 | h1 | h1
        · rcases Nat.lt_trichotomy y.toNat z.toNat with h2 | h2 | h2
          · rw [if_pos (by omega)]
          · rw [if_pos (by omega)]
          · rw [if_neg (by omega), if_pos h2] at hbc
            simp at hbc
        · rcases Nat.lt_trichotomy y.toNat z.toNat with h2 | h2 | h2
          · rw [if_pos (by omega)]
          · rw [if_neg (by omega), if_neg (by omega)] at hab
            rw [if_neg (by omega), if_neg (by omega)] at hbc
            rw [if_neg (by omega), if_neg (by omega)]
            exact ih hab hbc
          · rw [if_neg (by omega), if_pos h2] at hbc
            simp at hbc
        · rw [if_neg (by omega), if_pos h1] at hab
          simp at hab

lemma strLe_total (a b : String) : strLe a b = true ∨ strLe b a = true :=
  charListLe_total a.data b.data

lemma strLe_trans {a b c : String} (hab : strLe a b = true) (hbc : strLe b c = true) :
    strLe a c = true :=
  charListLe_trans hab hbc

lemma sinsert_perm (s : String) (l : List String) : (sinsert s l).Perm (s :: l) := by
  induction l with
  | nil => exact List.Perm.refl _
  | cons x xs ih =>
    by_cases h : strLe s x = true
    · simp [sinsert, h]
    · simp only [sinsert, h, Bool.false_eq_true, if_neg, not_false_iff]
      exact (ih.cons x).trans (List.Perm.swap s x xs)

lemma sortStr_perm (l : List String) : (sortStr l).Perm l := by
  induction l with
  | nil => exact List.Perm.refl _
  | cons x xs ih =>
    exact (sinsert_perm x (sortStr xs)).trans (ih.cons x)

lemma mem_sortStr {s : String} {l : List String} : s ∈ sortStr l ↔ s ∈ l :=
  (sortStr_perm l).mem_iff

lemma sinsert_sorted {s : String} {l : List String}
    (hl : l.Sorted (fun a b => strLe a b = true)) :
    (sinsert s l).Sorted (fun a b => strLe a b = true) := by
  induction l with
  | nil => simp [sinsert]
  | cons x xs ih =>
    rw [List.sorted_cons] at hl
    by_cases h : strLe s x = true
    · simp only [sinsert, h, if_pos]
      rw [List.sorted_cons]
      refine ⟨?_, List.sorted_cons.mpr hl⟩
      intro b hb
      rcases List.mem_cons.mp hb with hb | hb
      · exact hb ▸ h
      · exact strLe_trans h (hl.1 b hb)
    · simp only [sinsert, h, Bool.false_eq_true, if_neg, not_false_iff]
      rw [List.sorted_cons]
      refine ⟨?_, ih hl.2⟩
      intro b hb
      rcases List.mem_cons.mp ((sinsert_perm s xs).mem_iff.mp hb) with hb | hb
      · rw [hb]
        rcases strLe_total s x with h' | h'
        · exact absurd h' h
        · exact h'
      · exact hl.1 b hb

lemma sortStr_sorted (l : List String) :
    (sortStr l).Sorted (fun a b => strLe a b = true) := by
  induction l with
  | nil => simp [sortStr]
  | cons x xs ih => exact sinsert_sorted ih

lemma mem_sortDedup {s : String} {l : List String} : s ∈ sortDedup l ↔ s ∈ l := by
  rw [sortDedup, mem_sortStr, List.mem_dedup]

lemma sortDedup_sorted (l : List String) :
    (sortDedup l).Sorted (fun a b => strLe a b = true) :=
  sortStr_sorted l.dedup

lemma sortDedup_nodup (l : List String) : (sortDedup l).Nodup :=
  ((sortStr_perm l.dedup).nodup_iff).mpr l.nodup_dedup

lemma update_latest_name (g : ChannelGroupInfo) (v : String) (t : Option Int) :
    (g.update_latest v t).name = g.name := rfl

lemma update_subdirs_name (g : ChannelGroupInfo) (s : List String) :
    (g.update_subdirs s).name = g.name := rfl

lemma update_latest_version (g : ChannelGroupInfo) (v : String) (t : Option Int) :
    dget (g.update_latest v t).data "version" = some (Value.str v) := by
  unfold ChannelGroupInfo.update_latest
  exact dget_dset_self _ _ _

lemma update_latest_timestamp_absent (g : ChannelGroupInfo) (v : String) (t : Option Int)
    (h : t = none ∨ t = some 0) :
    dget (g.update_latest v t).data "timestamp" = none := by
  unfold ChannelGroupInfo.update_latest
  rcases h with h | h <;> subst h <;>
    simp only [] <;>
    rw [dget_dset_other _ _ _ _ (by decide)] <;>
    exact dget_dpop_self _ _

lemma update_latest_timestamp_present (g : ChannelGroupInfo) (v : String) (n : Int)
    (h : n ≠ 0) :
    dget (g.update_latest v (some n)).data "timestamp" = some (Value.int n) := by
  unfold ChannelGroupInfo.update_latest
  simp only []
  rw [dget_dset_other _ _ _ _ (by decide), if_neg h]
  exact dget_dset_self _ _ _

lemma update_latest_other (g : ChannelGroupInfo) (v : String) (t : Option Int)
    (k : String) (hv : k ≠ "version") (ht : k ≠ "timestamp") :
    dget (g.update_latest v t).data k = dget g.data k := by
  unfold ChannelGroupInfo.update_latest
  cases t with
  | none =>
    rw [dget_dset_other _ _ _ _ hv]
    exact dget_dpop_other _ _ _ ht
  | some n =>
    by_cases hn : n = 0
    · subst hn
      simp only [if_pos rfl]
      rw [dget_dset_other _ _ _ _ hv]
      exact dget_dpop_other _ _ _ ht
    · simp only [if_neg hn]
      rw [dget_dset_other _ _ _ _ hv]
      exact dget_dset_other _ _ _ _ ht

lemma update_subdirs_subdirs (g : ChannelGroupInfo) (s : List String) :
    dget (g.update_subdirs s).data "subdirs" = some (Value.strs s) :=
  dget_dset_self _ _ _

lemma update_subdirs_other (g : ChannelGroupInfo) (s : List String) (k : String)
    (h : k ≠ "subdirs") :
    dget (g.update_subdirs s).data k = dget g.data k :=
  dget_dset_other _ _ _ _ h

lemma from_data_groups_eq (ps : List (String × List (String × Value)))
    (acc : List (String × ChannelGroupInfo))
    (hnd : (ps.map Prod.fst).Nodup)
    (hacc : ∀ k ∈ ps.map Prod.fst, dget acc k = none) :
    ps.foldl (fun acc p => dset p.1 (⟨p.1, p.2⟩ : ChannelGroupInfo) acc) acc =
      acc ++ ps.map (fun p => (p.1, (⟨p.1, p.2⟩ : ChannelGroupInfo))) := by
  induction ps generalizing acc with
  | nil => simp
  | cons p rest ih =>
    obtain ⟨k, d⟩ := p
    have hknotin : dget acc k = none := hacc k (by simp)
    have hset : dset k (⟨k, d⟩ : ChannelGroupInfo) acc = acc ++ [(k, ⟨k, d⟩)] := by
      clear hacc ih hnd
      induction acc with
      | nil => rfl
      | cons q qs ihq =>
        obtain ⟨k₁, v₁⟩ := q
        by_cases hk : k₁ = k
        · simp [dget, hk] at hknotin
        · simp only [dget, if_neg hk] at hknotin
          simp [dset, hk, ihq hknotin]
    simp only [List.foldl_cons, hset]
    rw [ih]
    · simp
    · exact (List.nodup_cons.mp (by simpa using hnd)).2
    · intro k' hk'
      rw [dget_append]
      rw [hacc k' (by simp [hk'])]
      have hne : k' ≠ k := by
        intro hkk
        subst hkk
        exact (List.nodup_cons.mp (by simpa using hnd)).1 hk'
      simp [dget, hne, Ne.symm hne]

lemma dget_filterMap_keyed (f : String → Option (String × ChannelGroupInfo))
    (hkey : ∀ k p, f k = some p → p.1 = k) :
    ∀ (keys : List String) (k : String),
      dget (keys.filterMap f) k = if k ∈ keys then (f k).map Prod.snd else none := by
  intro keys
  induction keys with
  | nil => intro k; simp [dget]
  | cons h t ih =>
    intro k
    rw [List.filterMap_cons]
    cases hfh : f h with
    | none =>
      by_cases hk : h = k
      · subst hk
        rw [ih]
        by_cases hmem : h ∈ t <;> simp [hmem, hfh]
      · rw [ih]
        simp [Ne.symm hk]
    | some p =>
      have hp : p.1 = h := hkey h p hfh
      obtain ⟨p1, p2⟩ := p
      simp only [] at hp
      subst hp
      by_cases hk : p1 = k
      · subst hk
        simp [dget, hfh]
      · simp only [dget, if_neg hk]
        rw [ih]
        simp [Ne.symm hk]

lemma merge_groups_dget (a b : ChannelData) (k : String) :
    dget (a.merge b).groups k =
      match dget a.groups k with
      | some g => some g
      | none => dget b.groups k := by
  unfold ChannelData.merge
  simp only []
  rw [dget_filterMap_keyed]
  · by_cases hmem : k ∈ sortDedup (a.groups.map Prod.fst ++ b.groups.map Prod.fst)
    · rw [if_pos hmem]
      cases ha : dget a.groups k with
      | some g => simp [ha]
      | none =>
        cases hb : dget b.groups k with
        | some g => simp [ha, hb]
        | none => simp [ha, hb]
    · rw [if_neg hmem]
      have hnotin : k ∉ a.groups.map Prod.fst ∧ k ∉ b.groups.map Prod.fst := by
        rw [mem_sortDedup, List.mem_append] at hmem
        push_neg at hmem
        exact hmem
      have ha : dget a.groups k = none := by
        cases hx : dget a.groups k with
        | none => rfl
        | some g => exact absurd ((dget_isSome_iff_mem_keys _ _).mp ⟨g, hx⟩) hnotin.1
      have hb : dget b.groups k = none := by
        cases hx : dget b.groups k with
        | none => rfl
        | some g => exact absurd ((dget_isSome_iff_mem_keys _ _).mp ⟨g, hx⟩) hnotin.2
      simp [ha, hb]
  · intro k' p hfp
    cases hA : dget a.groups k' with
    | some g =>
      rw [hA] at hfp
      cases hfp
      rfl
    | none =>
      rw [hA] at hfp
      cases hB : dget b.groups k' with
      | some g =>
        rw [hB] at hfp
        cases hfp
        rfl
      | none =>
        rw [hB] at hfp
        cases hfp

lemma dset_mem {β : Type} {l : List (String × β)} {k : String} {v : β} {q : String × β}
    (hq : q ∈ dset k v l) : q = (k, v) ∨ q ∈ l := by
  induction l with
  | nil => simpa [dset] using hq
  | cons p rest ih =>
    obtain ⟨k₁, v₁⟩ := p
    by_cases hk : k₁ = k
    · rw [dset, if_pos hk] at hq
      rcases List.mem_cons.mp hq with hq | hq
      · exact Or.inl hq
      · exact Or.inr (List.mem_cons_of_mem _ hq)
    · rw [dset, if_neg hk] at hq
      rcases List.mem_cons.mp hq with hq | hq
      · exact Or.inr (hq ▸ List.mem_cons_self _ _)
      · rcases ih hq with h | h
        · exact Or.inl h
        · exact Or.inr (List.mem_cons_of_mem _ h)

lemma pymax_mem {l : List (List Nat × Option Int)} {b : List Nat × Option Int}
    (h : pymax l = Except.ok b) : b ∈ l := by
  cases l with
  | nil => cases h
  | cons x xs =>
    rw [pymax] at h
    have main : ∀ (ys : List (List Nat × Option Int)) (acc : List Nat × Option Int)
        (hacc : acc ∈ x :: xs) (hys : ∀ y ∈ ys, y ∈ x :: xs),
        ys.foldlM (fun acc y => do
          let b ← pairGt y acc
          pure (if b then y else acc)) acc = Except.ok b → b ∈ x :: xs := by
      intro ys
      induction ys with
      | nil =>
        intro acc hacc _ hfold
        cases hfold
        exact hacc
      | cons y ys ih =>
        intro acc hacc hys hfold
        rw [List.foldlM_cons] at hfold
        cases hg : pairGt y acc with
        | error e => rw [hg] at hfold; cases hfold
        | ok bb =>
          rw [hg] at hfold
          refine ih (if bb then y else acc) ?_ (fun z hz => hys z (List.mem_cons_of_mem _ hz)) hfold
          cases bb with
          | true =>
            rw [if_pos rfl]
            exact hys y (List.mem_cons_self _ _)
          | false =>
            rw [if_neg (by simp)]
            exact hacc
    exact main xs x (List.mem_cons_self _ _) (fun y hy => List.mem_cons_of_mem _ hy) h

lemma groupResult_some_ok {repos : List RepoData} {name : String}
    {info g : ChannelGroupInfo}
    (h : groupResult repos name info = some (Except.ok g)) :
    collect repos name ≠ [] ∧
    ∃ best : List Nat × Option Int,
      pymax ((collect repos name).map (fun p => (create_order p.version, p.timestamp))) =
        Except.ok best ∧
      g = (info.update_subdirs
            (sortDedup ((collect repos name).map (fun p => p.subdir)))).update_latest
          (orderToString best.1) best.2 := by
  rw [groupResult] at h
  simp only [] at h
  by_cases hemp : (collect repos name).isEmpty = true
  · rw [if_pos hemp] at h
    cases h
  · rw [if_neg hemp] at h
    have hne : collect repos name ≠ [] := by
      intro hx
      rw [hx] at hemp
      exact hemp rfl
    refine ⟨hne, ?_⟩
    cases hmax : pymax ((collect repos name).map (fun p => (create_order p.version, p.timestamp))) with
    | error e =>
      rw [Option.some_inj] at h
      rw [show (do
            let best ← pymax ((collect repos name).map (fun p => (create_order p.version, p.timestamp)))
            pure ((info.update_subdirs
              (sortDedup ((collect repos name).map (fun p => p.subdir)))).update_latest
              (orderToString best.1) best.2) : Except PyError ChannelGroupInfo) =
          Except.error e from by rw [hmax]; rfl] at h
      cases h
    | ok best =>
      refine ⟨best, rfl, ?_⟩
      rw [Option.some_inj] at h
      rw [show (do
            let best ← pymax ((collect repos name).map (fun p => (create_order p.version, p.timestamp)))
            pure ((info.update_subdirs
              (sortDedup ((collect repos name).map (fun p => p.subdir)))).update_latest
              (orderToString best.1) best.2) : Except PyError ChannelGroupInfo) =
          Except.ok ((info.update_subdirs
              (sortDedup ((collect repos name).map (fun p => p.subdir)))).update_latest
              (orderToString best.1) best.2) from by rw [hmax]; rfl] at h
      cases h
      rfl

lemma rescaleGroups_cons_none {repos : List RepoData} {n : String}
    {i : ChannelGroupInfo} {rest : List (String × ChannelGroupInfo)}
    (hres : groupResult repos n i = none) :
    rescaleGroups repos ((n, i) :: rest) = rescaleGroups repos rest := by
  rw [rescaleGroups, hres]

lemma rescaleGroups_cons_some_error {repos : List RepoData} {n : String}
    {i : ChannelGroupInfo} {rest : List (String × ChannelGroupInfo)} {err : PyError}
    (hres : groupResult repos n i = some (Except.error err)) :
    rescaleGroups repos ((n, i) :: rest) = Except.error err := by
  rw [rescaleGroups, hres]
  rfl

lemma rescaleGroups_cons_some_ok {repos : List RepoData} {n : String}
    {i g' : ChannelGroupInfo} {rest : List (String × ChannelGroupInfo)}
    (hres : groupResult repos n i = some (Except.ok g')) :
    rescaleGroups repos ((n, i) :: rest) =
      (rescaleGroups repos rest).map (fun tail => (n, g') :: tail) := by
  rw [rescaleGroups, hres]
  cases htail : rescaleGroups repos rest <;> rfl

lemma rescaleGroups_ok_mem {repos : List RepoData} :
    ∀ {items : List (String × ChannelGroupInfo)}
      {res : List (String × ChannelGroupInfo)},
      rescaleGroups repos items = Except.ok res →
      ∀ {name : String} {g : ChannelGroupInfo}, (name, g) ∈ res →
        ∃ info, (name, info) ∈ items ∧ groupResult repos name info = some (Except.ok g) := by
  intro items
  induction items with
  | nil =>
    intro res hok name g hmem
    cases hok
    cases hmem
  | cons p rest ih =>
    obtain ⟨n, i⟩ := p
    intro res hok name g hmem
    cases hres : groupResult repos n i with
    | none =>
      rw [rescaleGroups_cons_none hres] at hok
      obtain ⟨info, hin, hgr⟩ := ih hok hmem
      exact ⟨info, List.mem_cons_of_mem _ hin, hgr⟩
    | some e =>
      cases e with
      | error err =>
        rw [rescaleGroups_cons_some_error hres] at hok
        cases hok
      | ok g' =>
        rw [rescaleGroups_cons_some_ok hres] at hok
        cases htail : rescaleGroups repos rest with
        | error err =>
          rw [htail] at hok
          cases hok
        | ok tail =>
          rw [htail] at hok
          simp only [Except.map] at hok
          injection hok with hok
          subst hok
          rcases List.mem_cons.mp hmem with hmem | hmem
          · have hn : name = n := congrArg Prod.fst hmem
            have hg : g = g' := congrArg Prod.snd hmem
            subst hn
            subst hg
            exact ⟨i, List.mem_cons_self _ _, hres⟩
          · obtain ⟨info, hin, hgr⟩ := ih htail hmem
            exact ⟨info, List.mem_cons_of_mem _ hin, hgr⟩

lemma rescaleGroups_drops {repos : List RepoData} {name : String}
    (hempty : collect repos name = []) :
    ∀ {items res : List (String × ChannelGroupInfo)},
      rescaleGroups repos items = Except.ok res →
      name ∉ res.map Prod.fst := by
  intro items
  induction items with
  | nil =>
    intro res hok
    cases hok
    simp
  | cons p rest ih =>
    obtain ⟨n, i⟩ := p
    intro res hok
    by_cases hn : n = name
    · subst hn
      have hres : groupResult repos n i = none := by
        rw [groupResult]
        simp [hempty]
      rw [rescaleGroups_cons_none hres] at hok
      exact ih hok
    · cases hres : groupResult repos n i with
      | none =>
        rw [rescaleGroups_cons_none hres] at hok
        exact ih hok
      | some e =>
        cases e with
        | error err =>
          rw [rescaleGroups_cons_some_error hres] at hok
          cases hok
        | ok g' =>
          rw [rescaleGroups_cons_some_ok hres] at hok
          cases htail : rescaleGroups repos rest with
          | error err =>
            rw [htail] at hok
            cases hok
          | ok tail =>
            rw [htail] at hok
            simp only [Except.map] at hok
            injection hok with hok
            subst hok
            intro hx
            rw [List.map_cons] at hx
            rcases List.mem_cons.mp hx with hx' | hx'
            · exact hn hx'.symm
            · exact ih htail hx'


lemma rescale_ok_parts {c : ChannelData} {repos : List RepoData} {c' : ChannelData}
    (hok : c.rescale repos = Except.ok c') :
    rescaleGroups repos c.groups = Except.ok c'.groups ∧
    c'.subdirs = sortDedup (c.groups.flatMap (fun p =>
      (repos.filter (fun r => r.contains p.1)).map (fun r => r.subdir))) := by
  rw [ChannelData.rescale] at hok
  cases hg : rescaleGroups repos c.groups with
  | error e =>
    rw [show (do
          let groups ← rescaleGroups repos c.groups
          let channel_subdirs := sortDedup (c.groups.flatMap (fun p =>
            (repos.filter (fun r => r.contains p.1)).map (fun r => r.subdir)))
          pure (⟨channel_subdirs, groups⟩ : ChannelData)) = (Except.error e : Except PyError ChannelData) from by
        rw [hg]; rfl] at hok
    cases hok
  | ok groups =>
    rw [show (do
          let groups ← rescaleGroups repos c.groups
          let channel_subdirs := sortDedup (c.groups.flatMap (fun p =>
            (repos.filter (fun r => r.contains p.1)).map (fun r => r.subdir)))
          pure (⟨channel_subdirs, groups⟩ : ChannelData)) = (Except.ok (⟨sortDedup (c.groups.flatMap (fun p =>
            (repos.filter (fun r => r.contains p.1)).map (fun r => r.subdir))), groups⟩ : ChannelData)) from by
        rw [hg]; rfl] at hok
    cases hok
    exact ⟨rfl, rfl⟩

lemma map_pair_eta {α β : Type} (l : List (α × β)) :
    l.map (fun p => (p.1, p.2)) = l := by
  induction l with
  | nil => rfl
  | cons p rest ih => simp [ih]

lemma foldl_dset_keyed (ps : List (String × List (String × Value)))
    (acc : List (String × ChannelGroupInfo))
    (hacc : ∀ p ∈ acc, p.1 = p.2.name) :
    ∀ p ∈ ps.foldl (fun acc q => dset q.1 (⟨q.1, q.2⟩ : ChannelGroupInfo) acc) acc,
      p.1 = p.2.name := by
  induction ps generalizing acc with
  | nil => exact hacc
  | cons q rest ih =>
    simp only [List.foldl_cons]
    apply ih
    intro p hp
    rcases dset_mem hp with h | h
    · rw [h]
    · exact hacc p h

end Lemmas

section Claims

/-- C1: the spec claims that `rescale` selects the winning record as the
lexicographic maximum of `(orderKey(version), timestamp)` pairs with an
absent timestamp sorting lowest in the tie-break.  The code instead
raises a Python `TypeError` whenever the order keys compare equal between
a record with an absent timestamp and one with a present timestamp:
on `tieSnapshot`/`tieRepos` (two records of the same version, timestamps
`None` and `100`) `rescale` fails instead of picking the timestamped
record. -/
theorem rescale_tiebreak_typeerror :
    ChannelData.rescale tieSnapshot tieRepos = Except.error PyError.typeError := rfl

/-- C2: every group surviving `rescale` stores, as its `version` field,
the string conversion of the winning pair's order key, and as its
`timestamp` field the winning pair's timestamp — with no `timestamp`
field at all when that timestamp is absent or zero; the winning pair is
the Python `max` of the pairs built from the records collected for the
group. -/
theorem rescale_winning_fields (c : ChannelData) (repos : List RepoData)
    (c' : ChannelData) (name : String) (g : ChannelGroupInfo)
    (hok : c.rescale repos = Except.ok c') (hmem : (name, g) ∈ c'.groups) :
    ∃ best : List Nat × Option Int,
      best ∈ (collect repos name).map (fun p => (create_order p.version, p.timestamp)) ∧
      pymax ((collect repos name).map (fun p => (create_order p.version, p.timestamp))) =
        Except.ok best ∧
      dget g.data "version" = some (Value.str (orderToString best.1)) ∧
      ((best.2 = none ∨ best.2 = some 0) → dget g.data "timestamp" = none) ∧
      (∀ n : Int, best.2 = some n → n ≠ 0 →
        dget g.data "timestamp" = some (Value.int n)) := by
  obtain ⟨hgroups, _⟩ := rescale_ok_parts hok
  obtain ⟨info, hin, hgr⟩ := rescaleGroups_ok_mem hgroups hmem
  obtain ⟨hne, best, hmax, hgeq⟩ := groupResult_some_ok hgr
  refine ⟨best, pymax_mem hmax, hmax, ?_, ?_, ?_⟩
  · rw [hgeq]
    exact update_latest_version _ _ _
  · intro h
    rw [hgeq]
    exact update_latest_timestamp_absent _ _ _ h
  · intro n hn hnz
    rw [hgeq, hn]
    exact update_latest_timestamp_present _ _ n hnz

/-- Witness for C2 at the end-to-end example of the spec. -/
theorem rescale_winning_fields_witness :
    ChannelData.rescale exampleSnapshot exampleRepos = Except.ok exampleRescaled ∧
    ("numpy", exampleRescaledGroup) ∈ exampleRescaled.groups ∧
    ∃ best : List Nat × Option Int,
      best ∈ (collect exampleRepos "numpy").map (fun p => (create_order p.version, p.timestamp)) ∧
      pymax ((collect exampleRepos "numpy").map (fun p => (create_order p.version, p.timestamp))) =
        Except.ok best ∧
      dget exampleRescaledGroup.data "version" = some (Value.str (orderToString best.1)) ∧
      ((best.2 = none ∨ best.2 = some 0) → dget exampleRescaledGroup.data "timestamp" = none) ∧
      (∀ n : Int, best.2 = some n → n ≠ 0 →
        dget exampleRescaledGroup.data "timestamp" = some (Value.int n)) :=
  ⟨rfl, by decide,
   rescale_winning_fields exampleSnapshot exampleRepos exampleRescaled "numpy"
     exampleRescaledGroup rfl (by decide)⟩

/-- C3: `merge` produces the lexicographically sorted, duplicate-free
union of both snapshots' subdirs, and its group lookup returns the
calling snapshot's group wholesale for every name the caller has,
falling back to the other snapshot otherwise — so the group-name set is
the union of both name sets. -/
theorem merge_spec (a b : ChannelData) :
    (a.merge b).subdirs.Sorted (fun s t => strLe s t = true) ∧
    (a.merge b).subdirs.Nodup ∧
    (∀ s : String, s ∈ (a.merge b).subdirs ↔ s ∈ a.subdirs ∨ s ∈ b.subdirs) ∧
    (∀ k : String, dget (a.merge b).groups k =
      match dget a.groups k with
      | some g => some g
      | none => dget b.groups k) := by
  have hsub : (a.merge b).subdirs = sortDedup (a.subdirs ++ b.subdirs) := rfl
  refine ⟨?_, ?_, ?_, merge_groups_dget a b⟩
  · rw [hsub]
    exact sortDedup_sorted _
  · rw [hsub]
    exact sortDedup_nodup _
  · intro s
    rw [hsub, mem_sortDedup, List.mem_append]

/-- C4: parsing a well-formed document (schema tag equal to the
supported constant, package names unique as in every Python dict) and
serializing the result reproduces the document with the `subdirs` list
sorted and every package field bag, extra fields included, verbatim. -/
theorem dump_from_data_round_trip (d : ChannelDict)
    (hv : d.channeldata_version = ChannelData.VERSION)
    (hnd : (d.packages.map Prod.fst).Nodup) :
    ∃ c : ChannelData, ChannelData.from_data d = Except.ok c ∧
      c.dump = ⟨d.channeldata_version, sortStr d.subdirs, d.packages⟩ := by
  refine ⟨⟨d.subdirs, d.packages.map (fun p => (p.1, (⟨p.1, p.2⟩ : ChannelGroupInfo)))⟩, ?_, ?_⟩
  · rw [ChannelData.from_data, if_neg (by simp [hv])]
    rw [from_data_groups_eq d.packages [] hnd (fun k _ => rfl)]
    rfl
  · rw [ChannelData.dump]
    have hmaps : (d.packages.map (fun p => (p.1, (⟨p.1, p.2⟩ : ChannelGroupInfo)))).map
        (fun p => (p.1, p.2.dump)) = d.packages := by
      rw [List.map_map]
      exact map_pair_eta d.packages
    rw [hv]
    simp only [hmaps]

/-- Witness for C4 at a concrete document with an extra payload field. -/
theorem dump_from_data_round_trip_witness :
    exampleDict.channeldata_version = ChannelData.VERSION ∧
    (exampleDict.packages.map Prod.fst).Nodup ∧
    ∃ c : ChannelData, ChannelData.from_data exampleDict = Except.ok c ∧
      c.dump = ⟨exampleDict.channeldata_version, sortStr exampleDict.subdirs,
                exampleDict.packages⟩ :=
  ⟨rfl, by decide, dump_from_data_round_trip exampleDict rfl (by decide)⟩

/-- C5: a group name tracked by the snapshot for which no record is
collected from any repo is absent from the snapshot `rescale` returns. -/
theorem rescale_drops_recordless_group (c : ChannelData) (repos : List RepoData)
    (c' : ChannelData) (name : String)
    (hok : c.rescale repos = Except.ok c')
    (_hin : name ∈ c.groups.map Prod.fst)
    (hempty : collect repos name = []) :
    name ∉ c'.groups.map Prod.fst := by
  obtain ⟨hgroups, _⟩ := rescale_ok_parts hok
  exact rescaleGroups_drops hempty hgroups

/-- Witness for C5: `scipy` is tracked but has no records, so it is
dropped. -/
theorem rescale_drops_recordless_group_witness :
    ChannelData.rescale droppedSnapshot droppedRepos = Except.ok ⟨[], []⟩ ∧
    "scipy" ∈ droppedSnapshot.groups.map Prod.fst ∧
    collect droppedRepos "scipy" = [] ∧
    "scipy" ∉ (ChannelData.mk [] []).groups.map Prod.fst :=
  ⟨rfl, by decide, rfl,
   rescale_drops_recordless_group droppedSnapshot droppedRepos ⟨[], []⟩ "scipy" rfl
     (by decide) rfl⟩

/-- C6 counterexample: the claim says the result snapshot's subdir list
equals the union of subdirs observed across surviving groups; on a repo
that contains the tracked name but maps it to an empty record sequence,
`rescale` drops the group yet still records the repo's subdir, so the
result has subdir `osx-64` while no surviving group exists at all. -/
theorem rescale_subdirs_counterexample :
    ChannelData.rescale emptyRecordsSnapshot emptyRecordsRepos =
      Except.ok ⟨["osx-64"], []⟩ ∧
    ¬ (∀ s : String, s ∈ (ChannelData.mk ["osx-64"] []).subdirs →
        ∃ p ∈ (ChannelData.mk ["osx-64"] []).groups, s ∈ groupSubdirsOf p.2) := by
  refine ⟨rfl, ?_⟩
  intro h
  obtain ⟨p, hp, _⟩ := h "osx-64" (by simp)
  exact absurd hp (List.not_mem_nil p)

/-- C6 amended: each surviving group's `subdirs` field is the sorted set
of the subdirs of its collected records, while the channel-level subdir
list of the result is the set of `repo.subdir` over every pair of a
tracked group name and a repo containing that name — including groups
that end up dropped. -/
theorem rescale_subdirs_amended (c : ChannelData) (repos : List RepoData)
    (c' : ChannelData) (hok : c.rescale repos = Except.ok c') :
    (∀ (name : String) (g : ChannelGroupInfo), (name, g) ∈ c'.groups →
      dget g.data "subdirs" =
        some (Value.strs (sortDedup ((collect repos name).map (fun p => p.subdir))))) ∧
    (∀ s : String, s ∈ c'.subdirs ↔
      ∃ p ∈ c.groups, ∃ r ∈ repos, r.contains p.1 = true ∧ r.subdir = s) := by
  obtain ⟨hgroups, hsubs⟩ := rescale_ok_parts hok
  constructor
  · intro name g hmem
    obtain ⟨info, hin, hgr⟩ := rescaleGroups_ok_mem hgroups hmem
    obtain ⟨hne, best, hmax, hgeq⟩ := groupResult_some_ok hgr
    rw [hgeq]
    rw [update_latest_other _ _ _ _ (by decide) (by decide)]
    exact update_subdirs_subdirs _ _
  · intro s
    rw [hsubs, mem_sortDedup, List.mem_flatMap]
    constructor
    · rintro ⟨p, hp, hs⟩
      rw [List.mem_map] at hs
      obtain ⟨r, hr, hrs⟩ := hs
      rw [List.mem_filter] at hr
      exact ⟨p, hp, r, hr.1, hr.2, hrs⟩
    · rintro ⟨p, hp, r, hr, hcont, hsub⟩
      exact ⟨p, hp, List.mem_map.mpr ⟨r, List.mem_filter.mpr ⟨hr, hcont⟩, hsub⟩⟩

/-- Witness for the amended C6 at the end-to-end example. -/
theorem rescale_subdirs_amended_witness :
    ChannelData.rescale exampleSnapshot exampleRepos = Except.ok exampleRescaled ∧
    ((∀ (name : String) (g : ChannelGroupInfo), (name, g) ∈ exampleRescaled.groups →
      dget g.data "subdirs" =
        some (Value.strs (sortDedup ((collect exampleRepos name).map (fun p => p.subdir))))) ∧
    (∀ s : String, s ∈ exampleRescaled.subdirs ↔
      ∃ p ∈ exampleSnapshot.groups, ∃ r ∈ exampleRepos,
        r.contains p.1 = true ∧ r.subdir = s)) :=
  ⟨rfl, rescale_subdirs_amended exampleSnapshot exampleRepos exampleRescaled rfl⟩

/-- C7: `update_latest` always overwrites `version`, removes the
`timestamp` field entirely when the argument is absent or zero, sets it
otherwise, and carries every other field — and the name — over
unchanged. -/
theorem update_latest_spec (g : ChannelGroupInfo) (v : String) (t : Option Int) :
    (g.update_latest v t).name = g.name ∧
    dget (g.update_latest v t).data "version" = some (Value.str v) ∧
    ((t = none ∨ t = some 0) → dget (g.update_latest v t).data "timestamp" = none) ∧
    (∀ n : Int, t = some n → n ≠ 0 →
      dget (g.update_latest v t).data "timestamp" = some (Value.int n)) ∧
    (∀ k : String, k ≠ "version" → k ≠ "timestamp" →
      dget (g.update_latest v t).data k = dget g.data k) := by
  refine ⟨rfl, update_latest_version g v t, update_latest_timestamp_absent g v t, ?_,
    fun k hkv hkt => update_latest_other g v t k hkv hkt⟩
  intro n hn hnz
  rw [hn]
  exact update_latest_timestamp_present g v n hnz

/-- Witness for C7: dropping a previously present timestamp, overwriting
the version, and keeping an extra field. -/
theorem update_latest_spec_witness :
    dget ((exampleGroup.update_latest "2.0" none).data) "timestamp" = none ∧
    dget ((exampleGroup.update_latest "2.0" none).data) "version" = some (Value.str "2.0") ∧
    dget ((exampleGroup.update_latest "2.0" none).data) "license" = dget exampleGroup.data "license" :=
  ⟨(update_latest_spec exampleGroup "2.0" none).2.2.1 (Or.inl rfl),
   (update_latest_spec exampleGroup "2.0" none).2.1,
   (update_latest_spec exampleGroup "2.0" none).2.2.2.2 "license" (by decide) (by decide)⟩

/-- C8: parsing succeeds exactly when the schema tag equals the
supported constant, a mismatching tag yields the `InvalidChannel` error,
and no other eager validation happens — a package entry lacking a
`version` field parses successfully. -/
theorem from_data_invalid_iff :
    (∀ d : ChannelDict, (ChannelData.from_data d).isOk = true ↔
      d.channeldata_version = ChannelData.VERSION) ∧
    (∀ d : ChannelDict, d.channeldata_version ≠ ChannelData.VERSION →
      ChannelData.from_data d = Except.error ⟨"Unknown repodata version"⟩) ∧
    ChannelData.from_data lazyDict =
      Except.ok ⟨[], [("numpy", ⟨"numpy", [("timestamp", Value.int 5)]⟩)]⟩ := by
  refine ⟨?_, ?_, rfl⟩
  · intro d
    by_cases h : d.channeldata_version = ChannelData.VERSION
    · rw [ChannelData.from_data, if_neg (by simp [h])]
      simp [Except.isOk, Except.toBool, h]
    · rw [ChannelData.from_data, if_pos (by simpa using h)]
      simp [Except.isOk, Except.toBool, h]
  · intro d h
    rw [ChannelData.from_data, if_pos (by simpa using h)]

/-- Witness for C8 at a document with schema tag 2. -/
theorem from_data_invalid_iff_witness :
    badDict.channeldata_version ≠ ChannelData.VERSION ∧
    ChannelData.from_data badDict = Except.error ⟨"Unknown repodata version"⟩ :=
  ⟨by decide, from_data_invalid_iff.2.1 badDict (by decide)⟩

/-- C9: two groups with the same name are equal under `__eq__` and have
the same stored hash, whatever their payloads. -/
theorem groupinfo_eq_hash_by_name (a b : ChannelGroupInfo) (h : a.name = b.name) :
    ChannelGroupInfo.eq a b = true ∧ a.hashv = b.hashv := by
  unfold ChannelGroupInfo.eq ChannelGroupInfo.hashv ChannelGroupInfo.pkey
  rw [h]
  exact ⟨by simp, rfl⟩

/-- Witness for C9 at two same-named groups with different payloads. -/
theorem groupinfo_eq_hash_by_name_witness :
    groupA.name = groupB.name ∧ groupA.data ≠ groupB.data ∧
    (ChannelGroupInfo.eq groupA groupB = true ∧ groupA.hashv = groupB.hashv) :=
  ⟨rfl, by decide, groupinfo_eq_hash_by_name groupA groupB rfl⟩

/-- C10: the invariant that every key of the group mapping equals the
name of the group it maps to holds for every parsed snapshot, is
preserved by `merge` of two snapshots satisfying it, and is preserved by
a successful `rescale` of a snapshot satisfying it. -/
theorem keyed_by_name_preserved :
    (∀ (d : ChannelDict) (c : ChannelData),
      ChannelData.from_data d = Except.ok c → KeyedByName c) ∧
    (∀ a b : ChannelData, KeyedByName a → KeyedByName b → KeyedByName (a.merge b)) ∧
    (∀ (c : ChannelData) (repos : List RepoData) (c' : ChannelData),
      KeyedByName c → c.rescale repos = Except.ok c' → KeyedByName c') := by
  refine ⟨?_, ?_, ?_⟩
  · intro d c hok p hp
    rw [ChannelData.from_data] at hok
    by_cases h : d.channeldata_version ≠ ChannelData.VERSION
    · rw [if_pos h] at hok
      cases hok
    · rw [if_neg h] at hok
      injection hok with hok
      subst hok
      exact foldl_dset_keyed d.packages [] (fun q hq => absurd hq (List.not_mem_nil q)) p hp
  · intro a b ha hb p hp
    rw [show (a.merge b).groups =
        (sortDedup (a.groups.map Prod.fst ++ b.groups.map Prod.fst)).filterMap (fun k =>
          match dget a.groups k with
          | some g => some (k, g)
          | none => (dget b.groups k).map (fun g => (k, g))) from rfl] at hp
    rw [List.mem_filterMap] at hp
    obtain ⟨k, hk, hfk⟩ := hp
    cases hA : dget a.groups k with
    | some g =>
      rw [hA] at hfk
      cases hfk
      exact ha (k, g) (dget_mem hA)
    | none =>
      rw [hA] at hfk
      cases hB : dget b.groups k with
      | some g =>
        rw [hB] at hfk
        simp only [Option.map] at hfk
        cases hfk
        exact hb (k, g) (dget_mem hB)
      | none =>
        rw [hB] at hfk
        simp only [Option.map] at hfk
        cases hfk
  · intro c repos c' hkc hok p hp
    obtain ⟨hgroups, _⟩ := rescale_ok_parts hok
    obtain ⟨n0, g0⟩ := p
    obtain ⟨info, hin, hgr⟩ := rescaleGroups_ok_mem hgroups hp
    obtain ⟨hne, best, hmax, hgeq⟩ := groupResult_some_ok hgr
    have hname : g0.name = info.name := by rw [hgeq]; rfl
    show n0 = g0.name
    rw [hname]
    exact hkc (n0, info) hin

/-- Witness for C10: the parsed example snapshot satisfies the
invariant. -/
theorem keyed_by_name_preserved_witness :
    ChannelData.from_data exampleDict = Except.ok exampleParsed ∧ KeyedByName exampleParsed :=
  ⟨rfl, keyed_by_name_preserved.1 exampleDict exampleParsed rfl⟩

end Claims

end Isoconda
